import Mathlib

/-!
Verification of the rheometer batch-data moduli calculator
(`batch_handler_rheometer_data.py`).

The script is embedded shallowly: a pandas DataFrame row becomes a `Row`
record holding the four columns the script reads, numeric columns are
rationals, and the two Python exceptions that can escape the core
(`ValueError` from `np.gradient` on a too-short array, `TypeError` from
`len(None)` in `main`) are modelled with `Except PyErr`.
-/

set_option autoImplicit false

set_option allowUnsafeReducibility true in
attribute [semireducible] Rat.add Rat.sub Rat.mul Rat.inv

/-- One measurement row: the four columns the script reads, namely
`Cycle`, `ZTip Displacement(um)`, `ZForce(uN)` and `Current Size (um)`. -/
structure Row where
  cycle : String
  disp : ℚ
  force : ℚ
  size : ℚ
deriving Repr, DecidableEq, Inhabited

/-- `str.strip()` on the character sequence: drop leading and trailing
whitespace. -/
def pyStrip (l : List Char) : List Char :=
  ((l.dropWhile Char.isWhitespace).reverse.dropWhile Char.isWhitespace).reverse

/-- `row["Cycle"].strip().endswith("Compress")`. -/
def isCompress (s : String) : Bool := List.isSuffixOf "Compress".data (pyStrip s.data)

/-- One step of the row-by-row cycle numbering: from the running
`current_cycle`, the previous row's label (if any) and this row's label,
the cycle number recorded for this row (lines 33-45 of the script). -/
def stepCycle (cur : ℕ) (prev : Option String) (lbl : String) : ℕ :=
  if isCompress lbl then
    match prev with
    | none => 1
    | some p => if isCompress p then cur else cur + 1
  else cur

/-- The segmenter loop carrying `current_cycle` and the previous label. -/
def cycleNumbersFrom (cur : ℕ) (prev : Option String) : List Row → List ℕ
  | [] => []
  | r :: rs =>
    stepCycle cur prev r.cycle :: cycleNumbersFrom (stepCycle cur prev r.cycle) (some r.cycle) rs

/-- The `Cycle_Number` column: `current_cycle` starts at 0 with no previous row. -/
def cycleNumbers (df : List Row) : List ℕ := cycleNumbersFrom 0 none df

/-- `compress_df`: the compress-labelled rows paired with their cycle number. -/
def compressRows (df : List Row) : List (ℕ × Row) :=
  ((cycleNumbers df).zip df).filter (fun p => isCompress p.2.cycle)

/-- The distinct cycle numbers, in order of first appearance (pandas
`groupby` iterates keys in ascending order; since the tag sequence is
non-decreasing, first-appearance order is exactly ascending order). -/
def cycleIds (df : List Row) : List ℕ := ((compressRows df).map Prod.fst).dedup

/-- The rows of one `groupby("Cycle_Number")` group, in original order. -/
def groupOf (cr : List (ℕ × Row)) (c : ℕ) : List Row :=
  (cr.filter (fun p => decide (p.1 = c))).map Prod.snd

/-- The compress rows of cycle `c` of `df`. -/
def cycleGroup (df : List Row) (c : ℕ) : List Row := groupOf (compressRows df) c

/-- Interior entries of `np.gradient` with unit spacing: numpy computes
`out[1:-1] = (f[2:] - f[:-2]) / 2`. -/
def centeredDiffs : List ℚ → List ℚ
  | a :: b :: c :: rest => (c - a) / 2 :: centeredDiffs (b :: c :: rest)
  | _ => []

/-- `np.gradient` with unit spacing: one-sided differences at the two ends,
centered differences inside.  numpy raises `ValueError` when the array has
fewer than two entries (`edge_order + 1` with the default `edge_order = 1`),
modelled by `none`. -/
def npGradient : List ℚ → Option (List ℚ)
  | [] => none
  | [_] => none
  | x0 :: x1 :: rest =>
    let xs := x0 :: x1 :: rest
    some ((x1 - x0) :: (centeredDiffs xs ++ [xs.getD (xs.length - 1) 0 - xs.getD (xs.length - 2) 0]))

/-- Modelled from the spec: the discrete displacement gradient described
pointwise, "centered differences at interior points, one-sided differences
at the two ends", used to compare the source's selection against the
claimed characterisation. -/
def specGradient (d : List ℚ) (i : ℕ) : ℚ :=
  if i = 0 then d.getD 1 0 - d.getD 0 0
  else if i = d.length - 1 then d.getD (d.length - 1) 0 - d.getD (d.length - 2) 0
  else (d.getD (i + 1) 0 - d.getD (i - 1) 0) / 2

/-- `group[d_disp > 0]`: keep the rows whose gradient entry is strictly positive. -/
def selectLoading (g : List Row) (u : List ℚ) : List Row :=
  ((g.zip u).filter (fun p => decide (0 < p.2))).map Prod.fst

/-- The loading sub-phase of a cycle group (empty when the gradient is undefined). -/
def loadingOf (g : List Row) : List Row :=
  match npGradient (g.map (·.disp)) with
  | none => []
  | some u => selectLoading g u

/-- A cycle's result: storage modulus (fit slope) and shear modulus (slope / 3). -/
structure Moduli where
  storage : ℚ
  shear : ℚ
deriving Repr, DecidableEq, Inhabited

/-- `Strain`: displacement relative to the group's first row, divided by the
group's first `Current Size` value.  Rational division totalizes the zero
initial-size case (float Python yields nan/inf strains there); that case
never reaches a fit, because `cycleModuli` intercepts it as the
`LinAlgError` path before the strain values are used. -/
def strainOf (g : List Row) (r : Row) : ℚ := (r.disp - g.headI.disp) / g.headI.size

/-- The slope of `np.polyfit(x, y, 1)`: the ordinary least-squares line. -/
def polyfitSlope (xs ys : List ℚ) : ℚ :=
  ((xs.length : ℚ) * (xs.zipWith (fun a b => a * b) ys).sum - xs.sum * ys.sum) /
    ((xs.length : ℚ) * (xs.map (fun x => x * x)).sum - xs.sum * xs.sum)

/-- The three uncaught Python exceptions the script can raise:
`np.gradient`'s `ValueError` on a too-short array, `np.polyfit`'s
`LinAlgError` on non-finite input, and `main`'s `TypeError` from
`len(None)`. -/
inductive PyErr where
  | valueError
  | typeError
  | linAlgError
deriving Repr, DecidableEq

deriving instance DecidableEq for Except

/-- Lines 54-72: per-group moduli.  `np.gradient` on a group with fewer than
two rows raises `ValueError`; fewer than two loading rows means `continue`
(no result, and the nan/inf strains a zero initial size would have produced
are discarded unobserved, since float division by zero raises nothing);
otherwise `np.polyfit` runs: it raises `LinAlgError` when its input is not
finite, which in this program happens exactly when the group's first
`Current Size` is 0 (every strain is then `x / 0.0`, i.e. nan or inf) —
rationals have no nan/inf, so the embedding guards on that exact trigger
condition; with a nonzero initial size all strains are finite and the fit
records slope and slope / 3. -/
def cycleModuli (g : List Row) : Except PyErr (Option Moduli) :=
  match npGradient (g.map (·.disp)) with
  | none => Except.error PyErr.valueError
  | some u =>
    let loading := selectLoading g u
    if loading.length < 2 then Except.ok none
    else if g.headI.size = 0 then Except.error PyErr.linAlgError
    else
      let slope := polyfitSlope (loading.map (strainOf g)) (loading.map (·.force))
      Except.ok (some ⟨slope, slope / 3⟩)

/-- The `for cycle, group in compress_df.groupby("Cycle_Number")` loop:
builds the results dictionary as an association list in key order; an
exception in any group aborts the whole call. -/
def processCycles (cr : List (ℕ × Row)) : List ℕ → Except PyErr (List (ℕ × Moduli))
  | [] => Except.ok []
  | c :: cs =>
    match cycleModuli (groupOf cr c) with
    | Except.error e => Except.error e
    | Except.ok none => processCycles cr cs
    | Except.ok (some m) =>
      match processCycles cr cs with
      | Except.error e => Except.error e
      | Except.ok t => Except.ok ((c, m) :: t)

/-- `calculate_moduli_by_cycle`: tag, filter, group, and fit per cycle. -/
def calculate_moduli_by_cycle (df : List Row) : Except PyErr (List (ℕ × Moduli)) :=
  processCycles (compressRows df) (cycleIds df)

/-- One row of `moduli_summary.csv`. -/
structure SummaryRow where
  name : String
  cycle1 : Moduli
  cycle2 : Moduli
  cycle3 : Moduli
deriving Repr, DecidableEq

/-- Lines 96-113 of `main` for one file whose moduli dictionary was computed:
skip the file when fewer than 3 cycles have results, otherwise sort the cycle
numbers and build the summary row from the first three. -/
def summaryRow (nm : String) (r : List (ℕ × Moduli)) : Option SummaryRow :=
  if r.length < 3 then none
  else
    let cycles := List.insertionSort (· ≤ ·) (r.map Prod.fst)
    some ⟨nm, (r.lookup (cycles.getD 0 0)).getD default,
      (r.lookup (cycles.getD 1 0)).getD default,
      (r.lookup (cycles.getD 2 0)).getD default⟩

/-- `process_file`: a failed read is caught and returns `(None, None)`
(modelled `none`); otherwise the moduli dictionary is computed, and any
exception it raises propagates out. -/
def process_file (nm : String) (rd : Except String (List Row)) :
    Except PyErr (Option (String × List (ℕ × Moduli))) :=
  match rd with
  | Except.error _ => Except.ok none
  | Except.ok df => (calculate_moduli_by_cycle df).map (fun r => some (nm, r))

/-- The `for file in sorted(file_list)` loop of `main`, over the already
sorted list of (file name, read outcome) pairs.  When `process_file` returns
`(None, None)`, `main` evaluates `len(moduli_dict)` with `moduli_dict = None`
inside the skip message, which raises `TypeError`. -/
def mainLoop : List (String × Except String (List Row)) → Except PyErr (List SummaryRow)
  | [] => Except.ok []
  | (nm, rd) :: files =>
    match process_file nm rd with
    | Except.error e => Except.error e
    | Except.ok none => Except.error PyErr.typeError
    | Except.ok (some (tn, r)) =>
      match summaryRow tn r with
      | none => mainLoop files
      | some row =>
        match mainLoop files with
        | Except.error e => Except.error e
        | Except.ok t => Except.ok (row :: t)

/-- A compress-phase row (any label ending in `Compress` after trimming). -/
def rowC (d f s : ℚ) : Row := ⟨"Compress", d, f, s⟩

/-- A non-compress row. -/
def rowH (d f s : ℚ) : Row := ⟨"Hold", d, f, s⟩

/-- A well-formed three-cycle file: each cycle is two compress rows with
displacement rising 0 to 1 and a Hold row in between; the forces make the
cycle slopes 1, 2 and 3. -/
def exDf3 : List Row :=
  [rowC 0 0 1, rowC 1 1 1, rowH 1 0 1, rowC 0 0 1, rowC 1 2 1, rowH 1 0 1, rowC 0 0 1, rowC 1 3 1]

/-- A single-cycle file whose displacement rises, dips, and rises again
(0, 2, 1, 3): an increasing segment and a decreasing segment, ending on an
increasing step. -/
def ex3a : List Row := [rowC 0 0 1, rowC 2 0 1, rowC 1 0 1, rowC 3 9 1]

/-- `ex3a` with one extra unloading row (displacement drops 3 to 0,
arbitrary stress 5) appended to the cycle. -/
def ex3b : List Row := ex3a ++ [rowC 0 5 1]

/-- A cycle of two compress rows with strictly decreasing displacement:
no loading rows survive the gradient filter. -/
def exC2a : List Row := [rowC 1 0 1, rowC 0 0 1]

/-- A cycle of two compress rows with rising displacement: exactly two
loading rows (stress = 2 * strain + 5). -/
def exC2b : List Row := [rowC 0 5 1, rowC 1 7 1]

/-- A file starting with a non-compress row, then two compress runs of two
rows each. -/
def exC9 : List Row := [rowH 0 0 1, rowC 0 0 1, rowC 1 1 1, rowH 1 0 1, rowC 0 0 1, rowC 2 1 1]

/-- A two-cycle file: `exDf3` without its third cycle. -/
def exDf2 : List Row := [rowC 0 0 1, rowC 1 1 1, rowH 1 0 1, rowC 0 0 1, rowC 1 2 1]

/-- A single-cycle file whose displacement strictly rises then strictly
falls (0, 2, 1), ending on the decreasing step. -/
def exUpDown : List Row := [rowC 0 1 1, rowC 2 3 1, rowC 1 0 1]

/-- A two-row compress cycle whose first row has `Current Size` 0: both
rows pass the loading filter and the fit is reached with nan/inf strains. -/
def exZeroSize : List Row := [rowC 0 0 0, rowC 1 1 0]

/-- A file with a leading Hold row and one two-row compress cycle. -/
def exA : List Row := [rowH 5 5 5, rowC 0 0 1, rowC 1 1 1]

/-- `exA` with different numeric values on its non-compress row. -/
def exB : List Row := [rowH 9 9 9, rowC 0 0 1, rowC 1 1 1]

/-! ### Lemmas about the cycle segmenter -/

theorem stepCycle_none (cur : ℕ) (l : String) :
    stepCycle cur none l = if isCompress l then 1 else cur := by
  by_cases h : isCompress l <;> simp [stepCycle, h]

theorem stepCycle_some (cur : ℕ) (p l : String) :
    stepCycle cur (some p) l = cur + (if isCompress l ∧ ¬ isCompress p then 1 else 0) := by
  by_cases hl : isCompress l <;> by_cases hp : isCompress p <;> simp [stepCycle, hl, hp]

theorem stepCycle_le (cur : ℕ) (p l : String) : cur ≤ stepCycle cur (some p) l := by
  rw [stepCycle_some]; split <;> omega

theorem stepCycle_noncompress (cur : ℕ) (prev : Option String) (l : String)
    (h : ¬ isCompress l) : stepCycle cur prev l = cur := by
  simp [stepCycle, h]

theorem cycleNumbersFrom_length :
    ∀ (df : List Row) (cur : ℕ) (prev : Option String),
      (cycleNumbersFrom cur prev df).length = df.length
  | [], _, _ => rfl
  | r :: rs, cur, prev => by
    simp [cycleNumbersFrom, cycleNumbersFrom_length rs]

theorem cycleNumbers_length (df : List Row) : (cycleNumbers df).length = df.length :=
  cycleNumbersFrom_length df 0 none

theorem cycleNumbersFrom_getD_zero (cur : ℕ) (prev : Option String) (r : Row) (rs : List Row) :
    (cycleNumbersFrom cur prev (r :: rs)).getD 0 0 = stepCycle cur prev r.cycle := rfl

theorem cycleNumbersFrom_getD_succ :
    ∀ (df : List Row) (cur : ℕ) (prev : Option String) (i : ℕ), i + 1 < df.length →
      (cycleNumbersFrom cur prev df).getD (i + 1) 0 =
        stepCycle ((cycleNumbersFrom cur prev df).getD i 0)
          (some ((df.getD i default).cycle)) ((df.getD (i + 1) default).cycle)
  | [], _, _, _, h => absurd h (by simp)
  | r :: rs, cur, prev, 0, h => by
    match rs, h with
    | s :: ss, _ => simp [cycleNumbersFrom]
  | r :: rs, cur, prev, i + 1, h => by
    simp only [cycleNumbersFrom, List.getD_cons_succ]
    exact cycleNumbersFrom_getD_succ rs _ (some r.cycle) i (by simpa using h)

theorem cycleNumbers_getD_succ (df : List Row) (i : ℕ) (h : i + 1 < df.length) :
    (cycleNumbers df).getD (i + 1) 0 =
      stepCycle ((cycleNumbers df).getD i 0) (some ((df.getD i default).cycle))
        ((df.getD (i + 1) default).cycle) :=
  cycleNumbersFrom_getD_succ df 0 none i h

theorem cycleNumbersFrom_chain' :
    ∀ (df : List Row) (cur : ℕ) (prev : Option String),
      List.Chain' (· ≤ ·) (cycleNumbersFrom cur prev df)
  | [], _, _ => List.chain'_nil
  | [_], _, _ => List.chain'_singleton _
  | r :: s :: rs, cur, prev => by
    have ih := cycleNumbersFrom_chain' (s :: rs) (stepCycle cur prev r.cycle) (some r.cycle)
    simp only [cycleNumbersFrom] at ih ⊢
    exact List.chain'_cons.mpr ⟨stepCycle_le _ _ _, ih⟩

theorem cycleNumbersFrom_getD_of_noncompress :
    ∀ (df : List Row) (cur : ℕ) (prev : Option String) (i : ℕ), i < df.length →
      (∀ j, j ≤ i → ¬ isCompress ((df.getD j default).cycle)) →
      (cycleNumbersFrom cur prev df).getD i 0 = cur
  | [], _, _, _, h, _ => absurd h (by simp)
  | r :: _, cur, prev, 0, _, hnc => by
    have h0 : ¬ isCompress r.cycle := by simpa using hnc 0 (le_refl 0)
    simp [cycleNumbersFrom, stepCycle_noncompress _ _ _ h0]
  | r :: rs, cur, prev, i + 1, h, hnc => by
    have h0 : ¬ isCompress r.cycle := by simpa using hnc 0 (by omega)
    simp only [cycleNumbersFrom, List.getD_cons_succ, stepCycle_noncompress _ _ _ h0]
    exact cycleNumbersFrom_getD_of_noncompress rs cur (some r.cycle) i (by simpa using h)
      (fun j hj => by simpa using hnc (j + 1) (by omega))

theorem cycleNumbersFrom_getD_first_compress :
    ∀ (df : List Row) (prev : Option String) (i : ℕ), i < df.length →
      isCompress ((df.getD i default).cycle) →
      (∀ j, j < i → ¬ isCompress ((df.getD j default).cycle)) →
      (∀ p, prev = some p → ¬ isCompress p) →
      (cycleNumbersFrom 0 prev df).getD i 0 = 1
  | [], _, _, h, _, _, _ => absurd h (by simp)
  | r :: _, prev, 0, _, hc, _, hp => by
    have hc' : isCompress r.cycle := by simpa using hc
    cases prev with
    | none => simp [cycleNumbersFrom, stepCycle_none, hc']
    | some p => simp [cycleNumbersFrom, stepCycle_some, hc', hp p rfl]
  | r :: rs, prev, i + 1, h, hc, hlt, hp => by
    have h0 : ¬ isCompress r.cycle := by simpa using hlt 0 (by omega)
    simp only [cycleNumbersFrom, List.getD_cons_succ, stepCycle_noncompress _ _ _ h0]
    exact cycleNumbersFrom_getD_first_compress rs (some r.cycle) i (by simpa using h)
      (by simpa using hc) (fun j hj => by simpa using hlt (j + 1) (by omega))
      (fun p hp' => by cases hp'; exact h0)

theorem cycleNumbersFrom_getD_ge_one :
    ∀ (df : List Row) (cur : ℕ) (prev : Option String),
      (∀ p, prev = some p → isCompress p → 1 ≤ cur) →
      ∀ i, i < df.length → isCompress ((df.getD i default).cycle) →
      1 ≤ (cycleNumbersFrom cur prev df).getD i 0
  | [], _, _, _, _, h, _ => absurd h (by simp)
  | r :: rs, cur, prev, hinv, 0, _, hc => by
    have hc' : isCompress r.cycle := by simpa using hc
    cases prev with
    | none => simp [cycleNumbersFrom, stepCycle_none, hc']
    | some p =>
      by_cases hp : isCompress p
      · have := hinv p rfl hp
        simp [cycleNumbersFrom, stepCycle_some, hc', hp]; omega
      · simp [cycleNumbersFrom, stepCycle_some, hc', hp]
  | r :: rs, cur, prev, hinv, i + 1, h, hc => by
    simp only [cycleNumbersFrom, List.getD_cons_succ]
    refine cycleNumbersFrom_getD_ge_one rs (stepCycle cur prev r.cycle) (some r.cycle)
      ?_ i (by simpa using h) (by simpa using hc)
    intro p hp hpc
    cases hp
    have hc' : isCompress r.cycle := hpc
    cases prev with
    | none => simp [stepCycle_none, hc']
    | some q =>
      by_cases hq : isCompress q
      · have := hinv q rfl hq
        rw [stepCycle_some]; omega
      · simp [stepCycle_some, hc', hq]

theorem cycleNumbers_compress_ge_one (df : List Row) (i : ℕ) (h : i < df.length)
    (hc : isCompress ((df.getD i default).cycle)) : 1 ≤ (cycleNumbers df).getD i 0 :=
  cycleNumbersFrom_getD_ge_one df 0 none (fun _ hp _ => by cases hp) i h hc

/-! ### Lemmas about the numerical gradient -/

theorem centeredDiffs_length : ∀ xs : List ℚ, (centeredDiffs xs).length = xs.length - 2
  | [] => rfl
  | [_] => rfl
  | [_, _] => rfl
  | _ :: b :: c :: rest => by
    have ih := centeredDiffs_length (b :: c :: rest)
    simp only [centeredDiffs, List.length_cons] at ih ⊢
    omega

theorem centeredDiffs_getD :
    ∀ (xs : List ℚ) (i : ℕ), i < xs.length - 2 →
      (centeredDiffs xs).getD i 0 = (xs.getD (i + 2) 0 - xs.getD i 0) / 2
  | [], _, h => absurd h (by simp)
  | [_], _, h => absurd h (by simp)
  | [_, _], _, h => absurd h (by simp)
  | _ :: _ :: _ :: _, 0, _ => by simp [centeredDiffs]
  | _ :: b :: c :: rest, i + 1, h => by
    simp only [centeredDiffs, List.getD_cons_succ]
    exact centeredDiffs_getD (b :: c :: rest) i (by simp at h ⊢; omega)

theorem npGradient_of_two_le : ∀ xs : List ℚ, 2 ≤ xs.length → ∃ u, npGradient xs = some u
  | _ :: _ :: _, _ => ⟨_, rfl⟩
  | [], h => absurd h (by simp)
  | [_], h => absurd h (by simp)

theorem npGradient_length :
    ∀ xs u : List ℚ, npGradient xs = some u → u.length = xs.length
  | [], _, h => by simp [npGradient] at h
  | [_], _, h => by simp [npGradient] at h
  | x0 :: x1 :: rest, u, h => by
    obtain rfl : _ = u := Option.some.inj h
    simp [List.length_append, centeredDiffs_length]

theorem npGradient_getD (xs u : List ℚ) (h : npGradient xs = some u) :
    ∀ i, i < xs.length → u.getD i 0 = specGradient xs i := by
  match xs with
  | [] => simp [npGradient] at h
  | [_] => simp [npGradient] at h
  | x0 :: x1 :: rest =>
    obtain rfl : _ = u := Option.some.inj h
    intro i hi
    have hcl : (centeredDiffs (x0 :: x1 :: rest)).length = rest.length := by
      simp [centeredDiffs_length]
    match i with
    | 0 => simp [specGradient]
    | i + 1 =>
      by_cases hc : i < rest.length
      · rw [List.getD_cons_succ, List.getD_append _ _ _ _ (by omega)]
        rw [centeredDiffs_getD _ i (by simp; omega)]
        rw [specGradient, if_neg (by omega), if_neg (by simp; omega)]
        simp
      · have hi' : i = rest.length := by simp at hi; omega
        subst hi'
        rw [List.getD_cons_succ, List.getD_append_right _ _ _ _ (by omega)]
        rw [specGradient, if_neg (by omega), if_pos (by simp)]
        simp [hcl]

/-! ### Generic list lemmas: filtering a zip by positions -/

theorem zip_filter_eq_range {α β : Type} (dA : α) (dB : β) (q : α × β → Bool) :
    ∀ (l₁ : List α) (l₂ : List β), l₁.length = l₂.length →
      (l₁.zip l₂).filter q =
        ((List.range l₁.length).filter (fun i => q (l₁.getD i dA, l₂.getD i dB))).map
          (fun i => (l₁.getD i dA, l₂.getD i dB))
  | [], [], _ => rfl
  | [], _ :: _, h => by simp at h
  | _ :: _, [], h => by simp at h
  | a :: l₁, b :: l₂, h => by
    have ih := zip_filter_eq_range dA dB q l₁ l₂ (by simpa using h)
    have tail_eq : List.filter q (l₁.zip l₂) =
        List.map ((fun i => ((a :: l₁).getD i dA, (b :: l₂).getD i dB)) ∘ Nat.succ)
          (List.filter ((fun i => q ((a :: l₁).getD i dA, (b :: l₂).getD i dB)) ∘ Nat.succ)
            (List.range l₁.length)) := by
      rw [show ((fun i => ((a :: l₁).getD i dA, (b :: l₂).getD i dB)) ∘ Nat.succ) =
          (fun i => (l₁.getD i dA, l₂.getD i dB)) from funext fun i => rfl]
      rw [show ((fun i => q ((a :: l₁).getD i dA, (b :: l₂).getD i dB)) ∘ Nat.succ) =
          (fun i => q (l₁.getD i dA, l₂.getD i dB)) from funext fun i => rfl]
      exact ih
    rw [List.zip_cons_cons, List.filter_cons, List.length_cons, List.range_succ_eq_map,
      List.filter_cons, List.filter_map]
    simp only [List.getD_cons_zero]
    by_cases hq : q (a, b) = true
    · rw [if_pos hq, if_pos hq, List.map_cons, List.map_map]
      exact congrArg (List.cons (a, b)) tail_eq
    · rw [if_neg hq, if_neg hq, List.map_map]
      exact tail_eq

theorem two_le_length_of_mem_nodup {α : Type} :
    ∀ (l : List α), l.Nodup → ∀ a b : α, a ∈ l → b ∈ l → a ≠ b → 2 ≤ l.length
  | [], _, _, _, ha, _, _ => absurd ha (by simp)
  | [_], _, a, b, ha, hb, hne => by
    simp at ha hb; subst ha; subst hb; exact absurd rfl hne
  | _ :: _ :: _, _, _, _, _, _, _ => by simp [List.length_cons]

theorem two_le_length_of_map_ne {α β : Type} (f : α → β) :
    ∀ (l : List α) (r₁ r₂ : α), r₁ ∈ l → r₂ ∈ l → f r₁ ≠ f r₂ → 2 ≤ l.length
  | [], r₁, _, h, _, _ => absurd h (by simp)
  | [_], r₁, r₂, h1, h2, hne => by
    simp at h1 h2; subst h1; subst h2; exact absurd rfl hne
  | _ :: _ :: _, _, _, _, _, _ => by simp [List.length_cons]

/-! ### The least-squares slope on affine data -/

theorem sum_map_quadratic (xs : List ℚ) (a b c : ℚ) :
    (xs.map (fun x => a * (x * x) + b * x + c)).sum =
      a * (xs.map (fun x => x * x)).sum + b * xs.sum + c * xs.length := by
  induction xs with
  | nil => simp
  | cons x t ih =>
    simp only [List.map_cons, List.sum_cons, List.length_cons, ih]
    push_cast
    ring

theorem zipWith_mul_map (f : ℚ → ℚ) :
    ∀ xs : List ℚ, xs.zipWith (fun a b => a * b) (xs.map f) = xs.map (fun x => x * f x)
  | [] => rfl
  | x :: t => by simp [List.zipWith, zipWith_mul_map f t]

theorem sum_map_affine (xs : List ℚ) (k c : ℚ) :
    (xs.map (fun x => k * x + c)).sum = k * xs.sum + c * xs.length := by
  have h := sum_map_quadratic xs 0 k c
  rw [show (fun x : ℚ => k * x + c) = (fun x : ℚ => 0 * (x * x) + k * x + c) from
    funext fun x => by ring]
  rw [h]; ring

theorem sum_map_mul_affine (xs : List ℚ) (k c : ℚ) :
    (xs.map (fun x => x * (k * x + c))).sum =
      k * (xs.map (fun x => x * x)).sum + c * xs.sum := by
  have h := sum_map_quadratic xs k c 0
  rw [show (fun x : ℚ => x * (k * x + c)) = (fun x : ℚ => k * (x * x) + c * x + 0) from
    funext fun x => by ring]
  rw [h]; ring

theorem sum_sq_dev_pos (xs : List ℚ) (a b : ℚ) (ha : a ∈ xs) (hb : b ∈ xs) (hne : a ≠ b) :
    0 < (xs.length : ℚ) * (xs.map (fun x => x * x)).sum - xs.sum * xs.sum := by
  have hn : 0 < (xs.length : ℚ) := by
    have := List.length_pos.mpr (List.ne_nil_of_mem ha)
    exact_mod_cast this
  have key : (xs.map (fun x => (x - xs.sum / xs.length) * (x - xs.sum / xs.length))).sum =
      (xs.map (fun x => x * x)).sum - 2 * (xs.sum / xs.length) * xs.sum +
        (xs.sum / xs.length) * (xs.sum / xs.length) * xs.length := by
    have h := sum_map_quadratic xs 1 (-(2 * (xs.sum / xs.length))) ((xs.sum / xs.length) * (xs.sum / xs.length))
    rw [show (fun x : ℚ => (x - xs.sum / xs.length) * (x - xs.sum / xs.length)) =
      (fun x : ℚ => 1 * (x * x) + (-(2 * (xs.sum / xs.length))) * x +
        (xs.sum / xs.length) * (xs.sum / xs.length)) from funext fun x => by ring]
    rw [h]; ring
  have hnonneg : ∀ y ∈ xs.map (fun x => (x - xs.sum / xs.length) * (x - xs.sum / xs.length)), 0 ≤ y := by
    intro y hy
    obtain ⟨x, _, rfl⟩ := List.mem_map.mp hy
    exact mul_self_nonneg _
  have hS : 0 < (xs.map (fun x => (x - xs.sum / xs.length) * (x - xs.sum / xs.length))).sum := by
    have hone : a - xs.sum / xs.length ≠ 0 ∨ b - xs.sum / xs.length ≠ 0 := by
      by_contra hcon
      push_neg at hcon
      exact hne (by have h1 := sub_eq_zero.mp hcon.1; have h2 := sub_eq_zero.mp hcon.2; rw [h1, h2])
    obtain h | h := hone
    · have hmem := List.mem_map_of_mem (fun x : ℚ => (x - xs.sum / xs.length) * (x - xs.sum / xs.length)) ha
      have hle := List.single_le_sum hnonneg _ hmem
      have := mul_self_pos.mpr h
      linarith
    · have hmem := List.mem_map_of_mem (fun x : ℚ => (x - xs.sum / xs.length) * (x - xs.sum / xs.length)) hb
      have hle := List.single_le_sum hnonneg _ hmem
      have := mul_self_pos.mpr h
      linarith
  have expand : (xs.length : ℚ) *
      (xs.map (fun x => (x - xs.sum / xs.length) * (x - xs.sum / xs.length))).sum =
      (xs.length : ℚ) * (xs.map (fun x => x * x)).sum - xs.sum * xs.sum := by
    rw [key]
    field_simp
    ring
  have := mul_pos hn hS
  rw [expand] at this
  exact this

theorem polyfitSlope_affine (xs : List ℚ) (k c : ℚ) (a b : ℚ)
    (ha : a ∈ xs) (hb : b ∈ xs) (hne : a ≠ b) :
    polyfitSlope xs (xs.map (fun x => k * x + c)) = k := by
  unfold polyfitSlope
  rw [zipWith_mul_map, sum_map_mul_affine, sum_map_affine]
  have hD := sum_sq_dev_pos xs a b ha hb hne
  rw [show (xs.length : ℚ) * (k * (xs.map (fun x => x * x)).sum + c * xs.sum) -
      xs.sum * (k * xs.sum + c * xs.length) =
      k * ((xs.length : ℚ) * (xs.map (fun x => x * x)).sum - xs.sum * xs.sum) from by ring]
  rw [mul_div_assoc, div_self (ne_of_gt hD), mul_one]

/-! ### The loading selection in index form -/

theorem getD_map_lt {α β : Type} (f : α → β) (dA : α) (dB : β) :
    ∀ (l : List α) (i : ℕ), i < l.length → (l.map f).getD i dB = f (l.getD i dA)
  | _ :: _, 0, _ => rfl
  | _ :: t, i + 1, h => getD_map_lt f dA dB t i (by simpa using h)
  | [], _, h => absurd h (by simp)

theorem getD_mem_of_lt {α : Type} (l : List α) (d : α) (i : ℕ) (h : i < l.length) :
    l.getD i d ∈ l := by
  rw [List.getD_eq_get l d h]
  exact l.get_mem _ _

theorem two_le_of_npGradient_some :
    ∀ xs u : List ℚ, npGradient xs = some u → 2 ≤ xs.length
  | [], _, h => by simp [npGradient] at h
  | [_], _, h => by simp [npGradient] at h
  | _ :: _ :: _, _, _ => by simp [List.length_cons]

theorem selectLoading_eq_range (g : List Row) (u : List ℚ) (h : u.length = g.length) :
    selectLoading g u =
      ((List.range g.length).filter (fun i => decide (0 < u.getD i 0))).map
        (fun i => g.getD i default) := by
  unfold selectLoading
  rw [zip_filter_eq_range default 0 (fun p => decide (0 < p.2)) g u h.symm]
  rw [List.map_map]
  rfl

theorem loadingOf_eq_selectLoading (g : List Row) (u : List ℚ)
    (h : npGradient (g.map (·.disp)) = some u) : loadingOf g = selectLoading g u := by
  unfold loadingOf
  rw [h]

theorem cycleModuli_eq (g : List Row) (u : List ℚ) (h : npGradient (g.map (·.disp)) = some u) :
    cycleModuli g =
      (if (selectLoading g u).length < 2 then Except.ok none
       else if g.headI.size = 0 then Except.error PyErr.linAlgError
       else Except.ok (some
         ⟨polyfitSlope ((selectLoading g u).map (strainOf g)) ((selectLoading g u).map (·.force)),
          polyfitSlope ((selectLoading g u).map (strainOf g)) ((selectLoading g u).map (·.force)) / 3⟩)) := by
  unfold cycleModuli
  rw [h]

theorem loadingOf_eq_range (g : List Row) (h2 : 2 ≤ g.length) :
    loadingOf g =
      ((List.range g.length).filter (fun i => decide (0 < specGradient (g.map (·.disp)) i))).map
        (fun i => g.getD i default) := by
  obtain ⟨u, hu⟩ := npGradient_of_two_le (g.map (·.disp)) (by simpa using h2)
  rw [loadingOf_eq_selectLoading g u hu]
  rw [selectLoading_eq_range g u (by rw [npGradient_length _ _ hu]; simp)]
  refine congrArg _ (List.filter_congr ?_)
  intro i hi
  rw [npGradient_getD _ _ hu i (by simpa using List.mem_range.mp hi)]

/-! ### Appending unloading rows to a cycle -/

theorem headI_append (g l : List Row) (h : g ≠ []) : (g ++ l).headI = g.headI := by
  cases g with
  | nil => exact absurd rfl h
  | cons a t => rfl

theorem specGradient_append_frozen (d : List ℚ) (a : ℚ) (h2 : 2 ≤ d.length) :
    ∀ i, i < d.length - 1 → specGradient (d ++ [a]) i = specGradient d i := by
  intro i hi
  have hlen : (d ++ [a]).length = d.length + 1 := by simp
  by_cases h0 : i = 0
  · subst h0
    rw [specGradient, specGradient, if_pos rfl, if_pos rfl]
    rw [List.getD_append _ _ _ _ (by omega), List.getD_append _ _ _ _ (by omega)]
  · rw [specGradient, specGradient, if_neg h0, if_neg h0,
      if_neg (by omega), if_neg (by omega)]
    rw [List.getD_append _ _ _ _ (by omega), List.getD_append _ _ _ _ (by omega)]

theorem specGradient_append_peek (d : List ℚ) (a : ℚ) (h2 : 2 ≤ d.length) :
    specGradient (d ++ [a]) (d.length - 1) = (a - d.getD (d.length - 2) 0) / 2 := by
  have hlen : (d ++ [a]).length = d.length + 1 := by simp
  rw [specGradient, if_neg (by omega), if_neg (by omega)]
  rw [show d.length - 1 + 1 = d.length from by omega]
  rw [List.getD_append_right _ _ _ _ (by omega), List.getD_append _ _ _ _ (by omega)]
  rw [show d.length - d.length = 0 from by omega, show d.length - 1 - 1 = d.length - 2 from by omega]
  rfl

theorem specGradient_append_last (d : List ℚ) (a : ℚ) (h2 : 2 ≤ d.length) :
    specGradient (d ++ [a]) d.length = a - d.getD (d.length - 1) 0 := by
  have hlen : (d ++ [a]).length = d.length + 1 := by simp
  rw [specGradient, if_neg (by omega), if_pos (by omega)]
  rw [show (d ++ [a]).length - 1 = d.length from by omega,
    show (d ++ [a]).length - 2 = d.length - 1 from by omega]
  rw [List.getD_append_right _ _ _ _ (le_refl _), List.getD_append _ _ _ _ (by omega)]
  rw [show d.length - d.length = 0 from by omega]
  rfl

theorem loadingOf_append_unload (g : List Row) (y : Row) (h2 : 2 ≤ g.length)
    (hdec : (g.map (·.disp)).getD (g.length - 1) 0 < (g.map (·.disp)).getD (g.length - 2) 0)
    (hy : y.disp < (g.map (·.disp)).getD (g.length - 1) 0) :
    loadingOf (g ++ [y]) = loadingOf g := by
  have hdlen : (g.map (·.disp)).length = g.length := by simp
  have hmap : (g ++ [y]).map (·.disp) = g.map (·.disp) ++ [y.disp] := by simp
  have hlast : ¬ (0 < specGradient (g.map (·.disp)) (g.length - 1)) := by
    rw [specGradient, if_neg (by omega), if_pos (by omega), hdlen]
    linarith
  have hnewlast : ¬ (0 < specGradient (g.map (·.disp) ++ [y.disp]) g.length) := by
    rw [show g.length = (g.map (·.disp)).length from hdlen.symm]
    rw [specGradient_append_last _ _ (by omega), hdlen]
    linarith
  have hpeek : ¬ (0 < specGradient (g.map (·.disp) ++ [y.disp]) (g.length - 1)) := by
    rw [show g.length - 1 = (g.map (·.disp)).length - 1 from by rw [hdlen]]
    rw [specGradient_append_peek _ _ (by omega), hdlen]
    have h1 : y.disp - (g.map (·.disp)).getD (g.length - 2) 0 < 0 := by linarith
    linarith
  rw [loadingOf_eq_range g h2, loadingOf_eq_range (g ++ [y]) (by simp; omega)]
  rw [show (g ++ [y]).length = g.length + 1 from by simp, List.range_succ, List.filter_append,
    hmap]
  have hfilter_last : List.filter
      (fun i => decide (0 < specGradient (g.map (·.disp) ++ [y.disp]) i)) [g.length] = [] := by
    simp only [List.filter_cons, List.filter_nil, decide_eq_true_eq, if_neg hnewlast]
  rw [hfilter_last, List.append_nil]
  have hfilter_eq : List.filter
      (fun i => decide (0 < specGradient (g.map (·.disp) ++ [y.disp]) i)) (List.range g.length) =
      List.filter (fun i => decide (0 < specGradient (g.map (·.disp)) i))
        (List.range g.length) := by
    refine List.filter_congr ?_
    intro i hi
    have hilt : i < g.length := List.mem_range.mp hi
    by_cases hip : i < g.length - 1
    · rw [specGradient_append_frozen _ _ (by omega) i (by rw [hdlen]; omega)]
    · have hieq : i = g.length - 1 := by omega
      subst hieq
      rw [decide_eq_decide.mpr (iff_of_false hpeek hlast)]
  rw [hfilter_eq]
  refine List.map_congr_left ?_
  intro i hi
  have hilt : i < g.length := List.mem_range.mp (List.mem_of_mem_filter hi)
  rw [List.getD_append _ _ _ _ hilt]

theorem cycleModuli_append_unload (g : List Row) (y : Row) (h2 : 2 ≤ g.length)
    (hdec : (g.map (·.disp)).getD (g.length - 1) 0 < (g.map (·.disp)).getD (g.length - 2) 0)
    (hy : y.disp < (g.map (·.disp)).getD (g.length - 1) 0) :
    cycleModuli (g ++ [y]) = cycleModuli g := by
  obtain ⟨u, hu⟩ := npGradient_of_two_le (g.map (·.disp)) (by simpa using h2)
  obtain ⟨u', hu'⟩ := npGradient_of_two_le ((g ++ [y]).map (·.disp)) (by simp; omega)
  have hsel : selectLoading (g ++ [y]) u' = selectLoading g u := by
    rw [← loadingOf_eq_selectLoading g u hu, ← loadingOf_eq_selectLoading _ u' hu']
    exact loadingOf_append_unload g y h2 hdec hy
  have hhead : (g ++ [y]).headI = g.headI :=
    headI_append g [y] (by intro hnil; rw [hnil] at h2; simp at h2)
  have hstrain : strainOf (g ++ [y]) = strainOf g :=
    funext fun r => by rw [strainOf, strainOf, hhead]
  rw [cycleModuli_eq g u hu, cycleModuli_eq (g ++ [y]) u' hu', hsel, hstrain, hhead]

theorem cycleModuli_append_chain :
    ∀ (ys : List Row) (g : List Row), 2 ≤ g.length →
      (g.map (·.disp)).getD (g.length - 1) 0 < (g.map (·.disp)).getD (g.length - 2) 0 →
      List.Chain (fun a b => b < a) ((g.map (·.disp)).getD (g.length - 1) 0) (ys.map (·.disp)) →
      cycleModuli (g ++ ys) = cycleModuli g
  | [], g, _, _, _ => by simp
  | y :: ys, g, h2, hdec, hchain => by
    rw [List.map_cons, List.chain_cons] at hchain
    obtain ⟨hy, hrest⟩ := hchain
    have happ1 : cycleModuli (g ++ [y]) = cycleModuli g :=
      cycleModuli_append_unload g y h2 hdec hy
    have hg2 : 2 ≤ (g ++ [y]).length := by simp; omega
    have hdlen : (g.map (·.disp)).length = g.length := by simp
    have hlast : ((g ++ [y]).map (·.disp)).getD ((g ++ [y]).length - 1) 0 = y.disp := by
      rw [show (g ++ [y]).map (·.disp) = g.map (·.disp) ++ [y.disp] from by simp,
        show (g ++ [y]).length - 1 = (g.map (·.disp)).length from by simp]
      rw [List.getD_append_right _ _ _ _ (le_refl _)]
      simp
    have hpen : ((g ++ [y]).map (·.disp)).getD ((g ++ [y]).length - 2) 0 =
        (g.map (·.disp)).getD (g.length - 1) 0 := by
      rw [show (g ++ [y]).map (·.disp) = g.map (·.disp) ++ [y.disp] from by simp,
        show (g ++ [y]).length - 2 = g.length - 1 from by simp]
      rw [List.getD_append _ _ _ _ (by rw [hdlen]; omega)]
    have ih := cycleModuli_append_chain ys (g ++ [y]) hg2
      (by rw [hlast, hpen]; exact hy) (by rw [hlast]; exact hrest)
    calc cycleModuli (g ++ y :: ys) = cycleModuli ((g ++ [y]) ++ ys) := by
          rw [List.append_cons]
      _ = cycleModuli (g ++ [y]) := ih
      _ = cycleModuli g := happ1

/-! ### Lemmas about the batch driver -/

theorem dedup_pairwise_lt :
    ∀ l : List ℕ, l.Pairwise (· ≤ ·) → l.dedup.Pairwise (· < ·)
  | [], _ => by simp
  | a :: t, h => by
    obtain ⟨hall, ht⟩ := List.pairwise_cons.mp h
    by_cases hm : a ∈ t
    · rw [List.dedup_cons_of_mem hm]
      exact dedup_pairwise_lt t ht
    · rw [List.dedup_cons_of_not_mem hm]
      refine List.pairwise_cons.mpr ⟨?_, dedup_pairwise_lt t ht⟩
      intro b hb
      have hbt : b ∈ t := List.mem_dedup.mp hb
      have hle := hall b hbt
      have hne : a ≠ b := fun he => hm (he ▸ hbt)
      omega

theorem cycleNumbers_pairwise_le (df : List Row) : (cycleNumbers df).Pairwise (· ≤ ·) :=
  List.chain'_iff_pairwise.mp (cycleNumbersFrom_chain' df 0 none)

theorem compressRows_tags_pairwise_le (df : List Row) :
    ((compressRows df).map Prod.fst).Pairwise (· ≤ ·) := by
  have h1 : List.Sublist (compressRows df) ((cycleNumbers df).zip df) :=
    List.filter_sublist _
  have h2 : List.Sublist ((compressRows df).map Prod.fst)
      (((cycleNumbers df).zip df).map Prod.fst) := h1.map Prod.fst
  rw [List.map_fst_zip _ _ (by rw [cycleNumbers_length])] at h2
  exact (cycleNumbers_pairwise_le df).sublist h2

theorem cycleIds_pairwise_lt (df : List Row) : (cycleIds df).Pairwise (· < ·) :=
  dedup_pairwise_lt _ (compressRows_tags_pairwise_le df)

theorem processCycles_keys_sublist :
    ∀ (ids : List ℕ) (cr : List (ℕ × Row)) (r : List (ℕ × Moduli)),
      processCycles cr ids = Except.ok r → List.Sublist (r.map Prod.fst) ids
  | [], _, r, h => by
    obtain rfl : ([] : List (ℕ × Moduli)) = r := Except.ok.inj h
    simp
  | c :: cs, cr, r, h => by
    rw [processCycles] at h
    match hm : cycleModuli (groupOf cr c) with
    | Except.error e => rw [hm] at h; exact absurd h (by simp)
    | Except.ok none =>
      rw [hm] at h
      exact (processCycles_keys_sublist cs cr r h).cons c
    | Except.ok (some m) =>
      rw [hm] at h
      match hp : processCycles cr cs with
      | Except.error e => rw [hp] at h; exact absurd h (by simp)
      | Except.ok t =>
        rw [hp] at h
        obtain rfl : (c, m) :: t = r := Except.ok.inj h
        rw [List.map_cons]
        exact (processCycles_keys_sublist cs cr t hp).cons₂ c

theorem calc_keys_pairwise_lt (df : List Row) (r : List (ℕ × Moduli))
    (h : calculate_moduli_by_cycle df = Except.ok r) :
    (r.map Prod.fst).Pairwise (· < ·) :=
  (cycleIds_pairwise_lt df).sublist (processCycles_keys_sublist (cycleIds df) _ r h)

theorem lookup_getD :
    ∀ (r : List (ℕ × Moduli)) (i : ℕ), i < r.length → (r.map Prod.fst).Nodup →
      r.lookup ((r.getD i default).1) = some ((r.getD i default).2)
  | [], _, h, _ => absurd h (by simp)
  | (k, v) :: t, 0, _, _ => by simp [List.lookup]
  | (k, v) :: t, i + 1, h, hnd => by
    have hit : i < t.length := by simpa using h
    have hnd' := hnd
    rw [List.map_cons, List.nodup_cons] at hnd'
    have hmem : (t.getD i default).1 ∈ t.map Prod.fst :=
      List.mem_map_of_mem Prod.fst (getD_mem_of_lt t default i hit)
    have hne : ((t.getD i default).1 == k) = false := by
      simp only [beq_eq_false_iff_ne, ne_eq]
      intro he
      exact hnd'.1 (he ▸ hmem)
    rw [List.getD_cons_succ, List.lookup, hne]
    exact lookup_getD t i hit hnd'.2

theorem summaryRow_first_three (nm : String) (r : List (ℕ × Moduli))
    (hs : (r.map Prod.fst).Pairwise (· < ·)) (h3 : 3 ≤ r.length) :
    summaryRow nm r =
      some ⟨nm, (r.getD 0 default).2, (r.getD 1 default).2, (r.getD 2 default).2⟩ := by
  have hnd : (r.map Prod.fst).Nodup := hs.imp (fun h => Nat.ne_of_lt h)
  have hsorted : (r.map Prod.fst).Sorted (· ≤ ·) := hs.imp (fun h => Nat.le_of_lt h)
  unfold summaryRow
  rw [if_neg (by omega)]
  rw [List.Sorted.insertionSort_eq hsorted]
  dsimp only
  rw [getD_map_lt Prod.fst default 0 r 0 (by omega),
    getD_map_lt Prod.fst default 0 r 1 (by omega),
    getD_map_lt Prod.fst default 0 r 2 (by omega)]
  rw [lookup_getD r 0 (by omega) hnd, lookup_getD r 1 (by omega) hnd,
    lookup_getD r 2 (by omega) hnd]
  rfl

theorem summaryRow_short (nm : String) (r : List (ℕ × Moduli)) (h : r.length < 3) :
    summaryRow nm r = none := by
  unfold summaryRow
  rw [if_pos h]

theorem mainLoop_cons_ok (nm : String) (df : List Row) (r : List (ℕ × Moduli))
    (files : List (String × Except String (List Row)))
    (h : calculate_moduli_by_cycle df = Except.ok r) :
    mainLoop ((nm, Except.ok df) :: files) =
      (match summaryRow nm r with
       | none => mainLoop files
       | some row =>
         match mainLoop files with
         | Except.error e => Except.error e
         | Except.ok t => Except.ok (row :: t)) := by
  rw [mainLoop, process_file, h]
  rfl

theorem mainLoop_cons_readfail (nm : String) (e : String)
    (files : List (String × Except String (List Row))) :
    mainLoop ((nm, Except.error e) :: files) = Except.error PyErr.typeError := by
  rw [mainLoop, process_file]

/-! ### The compress rows and cycle groups in index form -/

theorem compressRows_eq_range (df : List Row) :
    compressRows df =
      ((List.range df.length).filter (fun i => isCompress ((df.getD i default).cycle))).map
        (fun i => ((cycleNumbers df).getD i 0, df.getD i default)) := by
  unfold compressRows
  rw [zip_filter_eq_range 0 default (fun p : ℕ × Row => isCompress p.2.cycle)
    (cycleNumbers df) df (cycleNumbers_length df)]
  rw [cycleNumbers_length]

theorem compressRows_fst_ge_one (df : List Row) : ∀ p ∈ compressRows df, 1 ≤ p.1 := by
  intro p hp
  rw [compressRows_eq_range] at hp
  obtain ⟨i, hif, rfl⟩ := List.mem_map.mp hp
  have hilt : i < df.length := List.mem_range.mp (List.mem_of_mem_filter hif)
  have hic : isCompress ((df.getD i default).cycle) := by
    simpa using List.of_mem_filter hif
  exact cycleNumbers_compress_ge_one df i hilt hic

theorem cycleGroup_isCompress (df : List Row) (c : ℕ) :
    ∀ r ∈ cycleGroup df c, isCompress r.cycle := by
  intro r hr
  unfold cycleGroup groupOf at hr
  obtain ⟨p, hp, rfl⟩ := List.mem_map.mp hr
  have hp' : p ∈ compressRows df := List.mem_of_mem_filter hp
  unfold compressRows at hp'
  simpa using List.of_mem_filter hp'

theorem cycleGroup_eq_range (df : List Row) (c : ℕ) :
    cycleGroup df c =
      ((List.range df.length).filter (fun i => decide ((cycleNumbers df).getD i 0 = c) &&
          isCompress ((df.getD i default).cycle))).map
        (fun i => df.getD i default) := by
  unfold cycleGroup groupOf
  rw [compressRows_eq_range, List.filter_map, List.map_map, List.filter_filter]
  rfl

theorem cycleGroup_two_le (df : List Row)
    (hruns : ∀ i, i < df.length → isCompress ((df.getD i default).cycle) →
      (i = 0 ∨ ¬ isCompress ((df.getD (i - 1) default).cycle)) →
      i + 1 < df.length ∧ isCompress ((df.getD (i + 1) default).cycle))
    (c : ℕ) (hc : c ∈ cycleIds df) : 2 ≤ (cycleGroup df c).length := by
  have hex : ∃ i, i < df.length ∧ isCompress ((df.getD i default).cycle) ∧
      (cycleNumbers df).getD i 0 = c := by
    obtain ⟨p, hp, hpc⟩ := List.mem_map.mp (List.mem_dedup.mp hc)
    rw [compressRows_eq_range] at hp
    obtain ⟨i, hif, rfl⟩ := List.mem_map.mp hp
    exact ⟨i, List.mem_range.mp (List.mem_of_mem_filter hif),
      by simpa using List.of_mem_filter hif, hpc⟩
  obtain ⟨hlt, hcomp, htag⟩ := Nat.find_spec hex
  have hstart : Nat.find hex = 0 ∨
      ¬ isCompress ((df.getD (Nat.find hex - 1) default).cycle) := by
    by_contra hcon
    push_neg at hcon
    obtain ⟨hne0, hprev⟩ := hcon
    have hprev' : isCompress ((df.getD (Nat.find hex - 1) default).cycle) := hprev
    have hne0' : Nat.find hex ≠ 0 := hne0
    have hstep := cycleNumbers_getD_succ df (Nat.find hex - 1) (by omega)
    rw [show Nat.find hex - 1 + 1 = Nat.find hex from by omega] at hstep
    rw [stepCycle_some, if_neg (fun hand => hand.2 hprev'), Nat.add_zero] at hstep
    have hPprev : Nat.find hex - 1 < df.length ∧
        isCompress ((df.getD (Nat.find hex - 1) default).cycle) ∧
        (cycleNumbers df).getD (Nat.find hex - 1) 0 = c :=
      ⟨by omega, hprev', by rw [← hstep]; exact htag⟩
    exact Nat.find_min hex (show Nat.find hex - 1 < Nat.find hex from by omega) hPprev
  obtain ⟨hslt, hscomp⟩ := hruns (Nat.find hex) hlt hcomp hstart
  have hstep := cycleNumbers_getD_succ df (Nat.find hex) hslt
  rw [stepCycle_some, if_neg (fun hand => hand.2 hcomp), Nat.add_zero] at hstep
  rw [cycleGroup_eq_range, List.length_map]
  refine two_le_length_of_mem_nodup _ ((List.nodup_range _).filter _)
    (Nat.find hex) (Nat.find hex + 1) ?_ ?_ (by omega)
  · rw [List.mem_filter]
    refine ⟨List.mem_range.mpr hlt, ?_⟩
    simp only [Bool.and_eq_true, decide_eq_true_eq]
    exact ⟨htag, hcomp⟩
  · rw [List.mem_filter]
    refine ⟨List.mem_range.mpr hslt, ?_⟩
    simp only [Bool.and_eq_true, decide_eq_true_eq]
    exact ⟨by omega, hscomp⟩

theorem processCycles_ok_of_groups :
    ∀ (ids : List ℕ) (cr : List (ℕ × Row)),
      (∀ c ∈ ids, 2 ≤ (groupOf cr c).length ∧ (groupOf cr c).headI.size ≠ 0) →
      ∃ r, processCycles cr ids = Except.ok r
  | [], _, _ => ⟨[], rfl⟩
  | c :: cs, cr, h => by
    obtain ⟨h2, hsz⟩ := h c (by simp)
    obtain ⟨u, hu⟩ := npGradient_of_two_le ((groupOf cr c).map (·.disp)) (by simpa using h2)
    obtain ⟨t, ht⟩ := processCycles_ok_of_groups cs cr (fun d hd => h d (by simp [hd]))
    have hcm := cycleModuli_eq _ u hu
    by_cases hlen : (selectLoading (groupOf cr c) u).length < 2
    · refine ⟨t, ?_⟩
      rw [processCycles, hcm, if_pos hlen, ht]
    · refine ⟨(c, ⟨polyfitSlope ((selectLoading (groupOf cr c) u).map (strainOf (groupOf cr c)))
          ((selectLoading (groupOf cr c) u).map (·.force)),
        polyfitSlope ((selectLoading (groupOf cr c) u).map (strainOf (groupOf cr c)))
          ((selectLoading (groupOf cr c) u).map (·.force)) / 3⟩) :: t, ?_⟩
      rw [processCycles, hcm, if_neg hlen, if_neg hsz, ht]

/-! ### Congruence: only labels and compress rows matter -/

theorem cycleNumbersFrom_congr :
    ∀ (df₁ df₂ : List Row) (cur : ℕ) (prev : Option String), df₁.length = df₂.length →
      (∀ i, i < df₁.length → (df₁.getD i default).cycle = (df₂.getD i default).cycle) →
      cycleNumbersFrom cur prev df₁ = cycleNumbersFrom cur prev df₂
  | [], [], _, _, _, _ => rfl
  | [], _ :: _, _, _, h, _ => by simp at h
  | _ :: _, [], _, _, h, _ => by simp at h
  | r :: t₁, s :: t₂, cur, prev, h, hl => by
    have h0 : r.cycle = s.cycle := by simpa using hl 0 (by simp)
    simp only [cycleNumbersFrom, h0]
    rw [cycleNumbersFrom_congr t₁ t₂ _ _ (by simpa using h)
      (fun i hi => by simpa using hl (i + 1) (by simpa using hi))]

theorem compressRows_congr (df₁ df₂ : List Row) (hlen : df₁.length = df₂.length)
    (hl : ∀ i, i < df₁.length → (df₁.getD i default).cycle = (df₂.getD i default).cycle)
    (hcomp : ∀ i, i < df₁.length → isCompress ((df₁.getD i default).cycle) →
      df₁.getD i default = df₂.getD i default) :
    compressRows df₁ = compressRows df₂ := by
  have hcyc : cycleNumbers df₁ = cycleNumbers df₂ :=
    cycleNumbersFrom_congr df₁ df₂ 0 none hlen hl
  rw [compressRows_eq_range, compressRows_eq_range,
    show df₂.length = df₁.length from hlen.symm]
  have hfilter : List.filter (fun i => isCompress ((df₂.getD i default).cycle))
      (List.range df₁.length) =
      List.filter (fun i => isCompress ((df₁.getD i default).cycle))
        (List.range df₁.length) := by
    refine List.filter_congr ?_
    intro i hi
    rw [hl i (List.mem_range.mp hi)]
  rw [hfilter]
  refine List.map_congr_left ?_
  intro i hi
  have hilt : i < df₁.length := List.mem_range.mp (List.mem_of_mem_filter hi)
  have hic : isCompress ((df₁.getD i default).cycle) := by
    simpa using List.of_mem_filter hi
  rw [hcyc, hcomp i hilt hic]

/-! ### The claims -/

/-- Claim C1 (code bug): the spec says a file read failure is caught for that
file only, logged, the file excluded from the summary, and processing
continues; in the code, `process_file` returns `(None, None)` and `main`
then evaluates `len(moduli_dict)` with `moduli_dict = None` inside the skip
message, raising an uncaught `TypeError` that aborts the whole batch.  At the
failing input below the batch dies on the first (unreadable) file and the
well-formed second file is never processed, although the same file alone
yields a summary row. -/
theorem claim_C1_code_bug :
    mainLoop [("bad.csv", Except.error "read failure"), ("good.csv", Except.ok exDf3)] =
      Except.error PyErr.typeError ∧
    mainLoop [("good.csv", Except.ok exDf3)] =
      Except.ok [⟨"good.csv", ⟨1, 1/3⟩, ⟨2, 2/3⟩, ⟨3, 1⟩⟩] :=
  ⟨by decide, by decide⟩

/-- Claim C2: for a cycle group (with at least the two rows `np.gradient`
needs) whose loading sub-phase keeps fewer than 2 rows after the
strictly-positive-gradient filter, the estimator yields no result for that
cycle (`Except.ok none`) and the per-cycle loop continues with the remaining
cycles unchanged — the `continue` happens before the fit, so even a zero
initial `Current Size` goes unobserved there; a cycle with exactly 2 rows
after the filter and a nonzero initial `Current Size` (the spec declares
the zero case undefined) yields a result. -/
theorem claim_C2 (df : List Row) (c : ℕ) (cs : List ℕ)
    (h2 : 2 ≤ (cycleGroup df c).length) :
    ((loadingOf (cycleGroup df c)).length < 2 →
      cycleModuli (cycleGroup df c) = Except.ok none ∧
      processCycles (compressRows df) (c :: cs) = processCycles (compressRows df) cs) ∧
    ((loadingOf (cycleGroup df c)).length = 2 → (cycleGroup df c).headI.size ≠ 0 →
      ∃ m, cycleModuli (cycleGroup df c) = Except.ok (some m)) := by
  obtain ⟨u, hu⟩ := npGradient_of_two_le ((cycleGroup df c).map (·.disp)) (by simpa using h2)
  have hload := loadingOf_eq_selectLoading _ u hu
  constructor
  · intro hlt
    have hm : cycleModuli (cycleGroup df c) = Except.ok none := by
      rw [cycleModuli_eq _ u hu, if_pos (by rw [← hload]; exact hlt)]
    refine ⟨hm, ?_⟩
    rw [processCycles, show groupOf (compressRows df) c = cycleGroup df c from rfl, hm]
  · intro heq hsz
    refine ⟨⟨polyfitSlope ((selectLoading (cycleGroup df c) u).map (strainOf (cycleGroup df c)))
        ((selectLoading (cycleGroup df c) u).map (·.force)),
      polyfitSlope ((selectLoading (cycleGroup df c) u).map (strainOf (cycleGroup df c)))
        ((selectLoading (cycleGroup df c) u).map (·.force)) / 3⟩, ?_⟩
    rw [cycleModuli_eq _ u hu, if_neg (by rw [← hload]; omega), if_neg hsz]

/-- Witness for C2: in `exC2a` the single cycle keeps 0 loading rows and
yields no result without stopping the loop; in `exC2b` the single cycle
keeps exactly 2 loading rows and yields a result. -/
theorem claim_C2_witness :
    (cycleModuli (cycleGroup exC2a 1) = Except.ok none ∧
      processCycles (compressRows exC2a) [1] = processCycles (compressRows exC2a) []) ∧
    ∃ m, cycleModuli (cycleGroup exC2b 1) = Except.ok (some m) :=
  ⟨(claim_C2 exC2a 1 [] (by decide)).1 (by decide),
   (claim_C2 exC2b 1 [] (by decide)).2 (by decide) (by decide)⟩

/-- Claim C3 counterexample: the claim fails as stated.  `ex3a` is one cycle
whose displacement (0, 2, 1, 3) contains an increasing and a decreasing
segment; appending one unloading row (displacement 0 < 3, arbitrary stress
5) changes the computed moduli from (27/10, 9/10) to (0, 0), because the
centered difference at the formerly-last row flips sign. -/
theorem claim_C3_counterexample :
    calculate_moduli_by_cycle ex3a = Except.ok [(1, ⟨27/10, 9/10⟩)] ∧
    ex3b = ex3a ++ [rowC 0 5 1] ∧
    calculate_moduli_by_cycle ex3b = Except.ok [(1, ⟨0, 0⟩)] ∧
    (27/10 : ℚ) ≠ 0 :=
  ⟨by decide, rfl, by decide, by decide⟩

/-- Claim C3 amended: (a) every row selected into the loading regression
sits at an increasing displacement step (its displacement is strictly above
its predecessor's or strictly below its successor's), so rows strictly
inside a decreasing segment never contribute; and (b) when the cycle's
displacement ends on a strictly decreasing step, appending further rows with
strictly decreasing displacements and arbitrary stress values leaves the
computed moduli unchanged.  (As originally stated the claim fails when the
cycle ends on an increasing step; see the counterexample.) -/
theorem claim_C3_amended (g : List Row) :
    (∀ u, npGradient (g.map (·.disp)) = some u → ∀ i, i < g.length → 0 < u.getD i 0 →
      (0 < i ∧ (g.map (·.disp)).getD (i - 1) 0 < (g.map (·.disp)).getD i 0) ∨
      (i + 1 < g.length ∧ (g.map (·.disp)).getD i 0 < (g.map (·.disp)).getD (i + 1) 0)) ∧
    (∀ ys : List Row, 2 ≤ g.length →
      (g.map (·.disp)).getD (g.length - 1) 0 < (g.map (·.disp)).getD (g.length - 2) 0 →
      List.Chain (fun a b => b < a) ((g.map (·.disp)).getD (g.length - 1) 0)
        (ys.map (·.disp)) →
      cycleModuli (g ++ ys) = cycleModuli g) := by
  constructor
  · intro u hu i hi hpos
    have h2 : 2 ≤ g.length := by simpa using two_le_of_npGradient_some _ u hu
    have hdlen : (g.map (·.disp)).length = g.length := by simp
    rw [npGradient_getD _ u hu i (by simpa using hi)] at hpos
    by_cases h0 : i = 0
    · subst h0
      rw [specGradient, if_pos rfl] at hpos
      right
      exact ⟨by omega, by linarith⟩
    · by_cases hlast : i = g.length - 1
      · rw [specGradient, if_neg h0, if_pos (by rw [hdlen]; exact hlast)] at hpos
        rw [hdlen] at hpos
        left
        refine ⟨by omega, ?_⟩
        subst hlast
        rw [show g.length - 1 - 1 = g.length - 2 from by omega]
        linarith
      · rw [specGradient, if_neg h0, if_neg (by rw [hdlen]; omega)] at hpos
        have h3 : (g.map (·.disp)).getD (i - 1) 0 < (g.map (·.disp)).getD (i + 1) 0 := by
          linarith
        rcases le_or_lt ((g.map (·.disp)).getD i 0) ((g.map (·.disp)).getD (i - 1) 0) with
          hle | hlt
        · right
          exact ⟨by omega, by linarith⟩
        · left
          exact ⟨by omega, hlt⟩
  · intro ys h2 hdec hchain
    exact cycleModuli_append_chain ys g h2 hdec hchain

/-- Witness for the amended C3: in `ex3a` the first selected row starts an
increasing step, and appending a strictly decreasing unloading row to the
up-then-down cycle `exUpDown` leaves its moduli unchanged. -/
theorem claim_C3_amended_witness :
    ((0 < 0 ∧ (ex3a.map (·.disp)).getD (0 - 1) 0 < (ex3a.map (·.disp)).getD 0 0) ∨
      (0 + 1 < ex3a.length ∧
        (ex3a.map (·.disp)).getD 0 0 < (ex3a.map (·.disp)).getD (0 + 1) 0)) ∧
    cycleModuli (exUpDown ++ [rowC (1/2) 9 1]) = cycleModuli exUpDown :=
  ⟨(claim_C3_amended ex3a).1 [2, 1/2, 1/2, 2] (by decide) 0 (by decide) (by decide),
   (claim_C3_amended exUpDown).2 [rowC (1/2) 9 1] (by decide) (by decide)
     (List.Chain.cons (by decide) List.Chain.nil)⟩

/-- Claim C4: the cycle-number sequence is non-decreasing; its first entry
is 1 exactly when the first row is compress-labelled (else 0, the starting
value); and each later entry grows by exactly 1 at a compress-labelled row
immediately following a non-compress row, staying unchanged otherwise. -/
theorem claim_C4 (df : List Row) :
    List.Chain' (· ≤ ·) (cycleNumbers df) ∧
    (cycleNumbers df).getD 0 0 =
      (if isCompress ((df.getD 0 default).cycle) then 1 else 0) ∧
    (∀ i, i + 1 < df.length →
      (cycleNumbers df).getD (i + 1) 0 =
        (cycleNumbers df).getD i 0 +
          (if isCompress ((df.getD (i + 1) default).cycle) ∧
              ¬ isCompress ((df.getD i default).cycle) then 1 else 0)) := by
  refine ⟨cycleNumbersFrom_chain' df 0 none, ?_, ?_⟩
  · cases df with
    | nil => decide
    | cons r rs =>
      show (cycleNumbersFrom 0 none (r :: rs)).getD 0 0 = _
      rw [cycleNumbersFrom_getD_zero, stepCycle_none]
      rfl
  · intro i hi
    rw [cycleNumbers_getD_succ df i hi, stepCycle_some]

/-- Witness for C4: the first increment of `exC9` happens at its first
compress row (index 1, after the Hold row at index 0). -/
theorem claim_C4_witness :
    (cycleNumbers exC9).getD (0 + 1) 0 =
      (cycleNumbers exC9).getD 0 0 +
        (if isCompress ((exC9.getD (0 + 1) default).cycle) ∧
            ¬ isCompress ((exC9.getD 0 default).cycle) then 1 else 0) :=
  (claim_C4 exC9).2.2 0 (by decide)

/-- Claim C5: a file whose moduli dictionary has exactly 2 entries is
excluded from the summary entirely and contributes nothing to the output;
a file with at least 3 entries contributes exactly one row built from the
three entries with the lowest cycle numbers, whose keys are in ascending
order. -/
theorem claim_C5 (nm : String) (df : List Row) (r : List (ℕ × Moduli))
    (files : List (String × Except String (List Row)))
    (h : calculate_moduli_by_cycle df = Except.ok r) :
    (r.length = 2 → summaryRow nm r = none ∧
      mainLoop ((nm, Except.ok df) :: files) = mainLoop files) ∧
    (3 ≤ r.length →
      (r.map Prod.fst).Pairwise (· < ·) ∧
      summaryRow nm r =
        some ⟨nm, (r.getD 0 default).2, (r.getD 1 default).2, (r.getD 2 default).2⟩ ∧
      mainLoop ((nm, Except.ok df) :: files) =
        (match mainLoop files with
         | Except.error e => Except.error e
         | Except.ok t => Except.ok
             (⟨nm, (r.getD 0 default).2, (r.getD 1 default).2, (r.getD 2 default).2⟩ :: t))) := by
  have hs := calc_keys_pairwise_lt df r h
  constructor
  · intro h2
    have hrow : summaryRow nm r = none := summaryRow_short nm r (by omega)
    refine ⟨hrow, ?_⟩
    rw [mainLoop_cons_ok nm df r files h, hrow]
  · intro h3
    have hrow := summaryRow_first_three nm r hs h3
    refine ⟨hs, hrow, ?_⟩
    rw [mainLoop_cons_ok nm df r files h, hrow]

/-- Witness for C5: the two-cycle file `exDf2` is dropped from the summary,
and the three-cycle dictionary of `exDf3` builds its row from cycles
1, 2, 3 in order. -/
theorem claim_C5_witness :
    (summaryRow "two.csv" [(1, ⟨1, 1/3⟩), (2, ⟨2, 2/3⟩)] = none ∧
      mainLoop [("two.csv", Except.ok exDf2)] = mainLoop []) ∧
    summaryRow "three.csv" [(1, ⟨1, 1/3⟩), (2, ⟨2, 2/3⟩), (3, ⟨3, 1⟩)] =
      some ⟨"three.csv", ⟨1, 1/3⟩, ⟨2, 2/3⟩, ⟨3, 1⟩⟩ :=
  ⟨(claim_C5 "two.csv" exDf2 [(1, ⟨1, 1/3⟩), (2, ⟨2, 2/3⟩)] [] (by decide)).1 (by decide),
   (((claim_C5 "three.csv" exDf3 [(1, ⟨1, 1/3⟩), (2, ⟨2, 2/3⟩), (3, ⟨3, 1⟩)] []
      (by decide)).2 (by decide)).2).1⟩

/-- Claim C6: the segmenter returns one cycle number per row; rows before
the first compress row are tagged 0; the first compress row is tagged 1;
and the regression never sees a row tagged 0, because every cycle id that
reaches the estimator is at least 1 and every grouped row is
compress-labelled. -/
theorem claim_C6 (df : List Row) :
    (cycleNumbers df).length = df.length ∧
    (∀ i, i < df.length → (∀ j, j ≤ i → ¬ isCompress ((df.getD j default).cycle)) →
      (cycleNumbers df).getD i 0 = 0) ∧
    (∀ i, i < df.length → isCompress ((df.getD i default).cycle) →
      (∀ j, j < i → ¬ isCompress ((df.getD j default).cycle)) →
      (cycleNumbers df).getD i 0 = 1) ∧
    (∀ c ∈ cycleIds df, 1 ≤ c) ∧
    (∀ c, ∀ r ∈ cycleGroup df c, isCompress r.cycle) := by
  refine ⟨cycleNumbers_length df, ?_, ?_, ?_, fun c => cycleGroup_isCompress df c⟩
  · intro i hi hnc
    exact cycleNumbersFrom_getD_of_noncompress df 0 none i hi hnc
  · intro i hi hc hlt
    exact cycleNumbersFrom_getD_first_compress df none i hi hc hlt (fun p hp => by cases hp)
  · intro c hc
    obtain ⟨p, hp, hpc⟩ := List.mem_map.mp (List.mem_dedup.mp hc)
    exact hpc ▸ compressRows_fst_ge_one df p hp

/-- Witness for C6: in `exC9` the Hold row at index 0 is tagged 0 and the
first compress row (index 1) is tagged 1. -/
theorem claim_C6_witness :
    (cycleNumbers exC9).getD 0 0 = 0 ∧ (cycleNumbers exC9).getD 1 0 = 1 :=
  ⟨(claim_C6 exC9).2.1 0 (by decide) (by decide),
   (claim_C6 exC9).2.2.1 1 (by decide) (by decide) (by decide)⟩

/-- Claim C7: when the loading rows of a cycle satisfy
`stress = k * strain + c` exactly and take at least two distinct strain
values, the least-squares fit returns storage modulus `k` and shear modulus
`k / 3`. -/
theorem claim_C7 (g : List Row) (k c : ℚ) (h2 : 2 ≤ g.length)
    (haff : ∀ r ∈ loadingOf g, r.force = k * strainOf g r + c)
    (hdist : ∃ r₁ ∈ loadingOf g, ∃ r₂ ∈ loadingOf g, strainOf g r₁ ≠ strainOf g r₂) :
    cycleModuli g = Except.ok (some ⟨k, k / 3⟩) := by
  obtain ⟨u, hu⟩ := npGradient_of_two_le (g.map (·.disp)) (by simpa using h2)
  have hload := loadingOf_eq_selectLoading g u hu
  obtain ⟨r₁, hr₁, r₂, hr₂, hne⟩ := hdist
  have hlen : 2 ≤ (selectLoading g u).length := by
    rw [← hload]
    exact two_le_length_of_map_ne (strainOf g) (loadingOf g) r₁ r₂ hr₁ hr₂ hne
  have hsz : g.headI.size ≠ 0 := by
    intro h0
    apply hne
    unfold strainOf
    rw [h0, div_zero, div_zero]
  rw [cycleModuli_eq g u hu, if_neg (by omega), if_neg hsz]
  have hstress : (selectLoading g u).map (·.force) =
      ((selectLoading g u).map (strainOf g)).map (fun x => k * x + c) := by
    rw [List.map_map]
    refine List.map_congr_left ?_
    intro r hr
    exact haff r (by rw [hload]; exact hr)
  rw [hstress]
  rw [polyfitSlope_affine _ k c (strainOf g r₁) (strainOf g r₂)
    (List.mem_map_of_mem _ (hload ▸ hr₁)) (List.mem_map_of_mem _ (hload ▸ hr₂)) hne]

/-- Witness for C7: `exC2b` has loading stresses 5, 7 at strains 0, 1, i.e.
stress = 2 * strain + 5, and the estimator returns (2, 2/3). -/
theorem claim_C7_witness : cycleModuli exC2b = Except.ok (some ⟨2, 2/3⟩) :=
  claim_C7 exC2b 2 5 (by decide) (by decide) (by decide)

/-- Claim C8: the loading sub-phase of a cycle group is exactly the rows
whose discrete displacement gradient — one-sided differences at the two
ends, centered differences at interior points — is strictly positive; a
zero gradient excludes the row. -/
theorem claim_C8 (g : List Row) (h2 : 2 ≤ g.length) :
    loadingOf g =
      ((List.range g.length).filter
        (fun i => decide (0 < specGradient (g.map (·.disp)) i))).map
        (fun i => g.getD i default) ∧
    (∀ i, i < g.length →
      specGradient (g.map (·.disp)) i =
        if i = 0 then (g.map (·.disp)).getD 1 0 - (g.map (·.disp)).getD 0 0
        else if i = g.length - 1 then
          (g.map (·.disp)).getD (g.length - 1) 0 - (g.map (·.disp)).getD (g.length - 2) 0
        else ((g.map (·.disp)).getD (i + 1) 0 - (g.map (·.disp)).getD (i - 1) 0) / 2) := by
  refine ⟨loadingOf_eq_range g h2, ?_⟩
  intro i hi
  rw [specGradient]
  simp only [List.length_map]

/-- Witness for C8: the loading selection of `ex3b` picks exactly the rows
with strictly positive gradient (indices 0, 1, 2 of its five rows). -/
theorem claim_C8_witness :
    loadingOf ex3b =
      ((List.range ex3b.length).filter
        (fun i => decide (0 < specGradient (ex3b.map (·.disp)) i))).map
        (fun i => ex3b.getD i default) :=
  (claim_C8 ex3b (by decide)).1

/-- Claim C9 counterexample: the claim fails as stated.  `exZeroSize`
satisfies the claim's hypotheses — labels are strings by the row type and
its single compress run has 2 rows — yet the code raises: the zero
`Current Size` of the cycle's first row makes every strain nan or inf, both
rows pass the loading filter, and `np.polyfit` raises `LinAlgError`, so
`calculate_moduli_by_cycle` does not return. -/
theorem claim_C9_counterexample :
    (∀ i, i < exZeroSize.length → isCompress ((exZeroSize.getD i default).cycle) →
      (i = 0 ∨ ¬ isCompress ((exZeroSize.getD (i - 1) default).cycle)) →
      i + 1 < exZeroSize.length ∧ isCompress ((exZeroSize.getD (i + 1) default).cycle)) ∧
    calculate_moduli_by_cycle exZeroSize = Except.error PyErr.linAlgError ∧
    ¬ ∃ r, calculate_moduli_by_cycle exZeroSize = Except.ok r := by
  refine ⟨by decide, by decide, ?_⟩
  rintro ⟨r, hr⟩
  rw [show calculate_moduli_by_cycle exZeroSize = Except.error PyErr.linAlgError
    from by decide] at hr
  exact Except.noConfusion hr

/-- Claim C9 amended: labels being strings is built into the row type; when
every maximal run of compress-labelled rows has at least 2 rows (every run
start is followed by another compress row) and, in addition, the first row
of every cycle group has a nonzero `Current Size`, then
`calculate_moduli_by_cycle` raises no exception: every cycle group meets
`np.gradient`'s two-point requirement and every reached fit has finite
strains.  (Without the added size condition the claim is false; see the
counterexample.) -/
theorem claim_C9_amended (df : List Row)
    (hruns : ∀ i, i < df.length → isCompress ((df.getD i default).cycle) →
      (i = 0 ∨ ¬ isCompress ((df.getD (i - 1) default).cycle)) →
      i + 1 < df.length ∧ isCompress ((df.getD (i + 1) default).cycle))
    (hsize : ∀ c ∈ cycleIds df, (cycleGroup df c).headI.size ≠ 0) :
    ∃ r, calculate_moduli_by_cycle df = Except.ok r := by
  exact processCycles_ok_of_groups (cycleIds df) (compressRows df)
    (fun c hc => ⟨cycleGroup_two_le df hruns c hc, hsize c hc⟩)

/-- Witness for the amended C9: `exC9` has two compress runs of two rows
each, all sizes nonzero, and the whole file is processed without an
exception. -/
theorem claim_C9_amended_witness : ∃ r, calculate_moduli_by_cycle exC9 = Except.ok r :=
  claim_C9_amended exC9 (by decide) (by decide)

/-- Claim C10: two row sequences of the same length that agree on every
row's label and agree entirely on every compress-labelled row (displacement,
force, current size) produce identical per-cycle results, whatever the
numeric fields of the non-compress rows are. -/
theorem claim_C10 (df₁ df₂ : List Row) (hlen : df₁.length = df₂.length)
    (hl : ∀ i, i < df₁.length → (df₁.getD i default).cycle = (df₂.getD i default).cycle)
    (hcomp : ∀ i, i < df₁.length → isCompress ((df₁.getD i default).cycle) →
      df₁.getD i default = df₂.getD i default) :
    calculate_moduli_by_cycle df₁ = calculate_moduli_by_cycle df₂ := by
  have hcr := compressRows_congr df₁ df₂ hlen hl hcomp
  unfold calculate_moduli_by_cycle cycleIds
  rw [hcr]

/-- Witness for C10: `exA` and `exB` differ only in the numeric fields of
their Hold row and get identical results. -/
theorem claim_C10_witness :
    calculate_moduli_by_cycle exA = calculate_moduli_by_cycle exB :=
  claim_C10 exA exB (by decide) (by decide) (by decide)
